import Mathlib

/-!
Verification of `bin/remove_reads_genome_transcriptome.py`.

The program reads two BOWTIE MAP files.  It builds batches of
(read name → mismatch count) from the first file (`map2dict`), then for each
batch streams the current state of the second file (initially the second
input, afterwards the residue of the previous pass), sending each line to
the final output, to a new residue file, or dropping it.  After the last
batch the remaining residue is appended verbatim to the final output.

The embedding below models lines as strings, a file as a list of lines, and
the byte-chunked `readlines(size_buffer)` reads of the first file as a list
of line chunks (any chunking of the file into nonempty consecutive chunks;
the byte-hint semantics of `readlines` is one instance).  The second file's
`readlines(10**8)` chunking only batches the buffered writes: both buffers
are flushed once per chunk, in line order, so the streamed pass is modelled
line by line.  Fallible field accesses (`h[col]`, `r[mc]`) are modelled with
`Option`.
-/

namespace RemoveReadsGT

/-- Python `s.count(c)` restricted to a single character `c`, on a char list. -/
def countCharL (c : Char) (l : List Char) : Nat :=
  (l.filter (fun x => x == c)).length

/-- Python `s.count(c)` for a single character `c`. -/
def pyCount (c : Char) (s : String) : Nat :=
  countCharL c s.data

/-- Python `s.split(sep)` for a one-character separator, on a char list.
Python's `split` with an explicit separator does not collapse repeats and
returns `[""]` on the empty string. -/
def splitCharAux (sep : Char) : List Char → List (List Char)
  | [] => [[]]
  | x :: xs =>
    match splitCharAux sep xs with
    | [] => [[]]
    | g :: gs => if x == sep then [] :: g :: gs else (x :: g) :: gs

/-- Python `s.split(sep)` for a one-character separator. -/
def pySplit (sep : Char) (s : String) : List String :=
  (splitCharAux sep s.data).map String.mk

/-- Python `s.rstrip('\r\n')`: drop trailing carriage returns and newlines. -/
def pyRstripCRLF (s : String) : String :=
  String.mk ((s.data.reverse.dropWhile (fun x => x == '\r' || x == '\n')).reverse)

/-- The tab-separated fields of a MAP line: `line.rstrip('\r\n').split('\t')`
(line 75 and line 204 of the source). -/
def fieldsOf (line : String) : List String :=
  pySplit '\t' (pyRstripCRLF line)

/-- The read name of a line: field 0 (`h[0]` / `r[0]`).  `split` always
returns at least one field, so the head default is never used. -/
def nameOf (line : String) : String :=
  (fieldsOf line).headD ""

/-- Mismatch count of a descriptor field: `0 if not v else v.count(':')`.
This is the one derivation used at both sites (line 81 in `map2dict` and
line 218 in the main loop). -/
def mismatches (v : String) : Nat :=
  if v = "" then 0 else pyCount ':' v

/-- The spec's wording of the mismatch count: 0 if the field is empty, else
the number of comma-separated descriptors.  Kept separate from `mismatches`
(which counts colons) so the two can be compared. -/
def mismatchesSpec (v : String) : Nat :=
  if v = "" then 0 else (pySplit ',' v).length

/-- `giveRC(h, col) = (h[0], h[col])` (line 59); `none` models the
`IndexError` when `col` is out of range. -/
def giveRC (h : List String) (col : Nat) : Option (String × String) :=
  match h.get? 0, h.get? col with
  | some a, some b => some (a, b)
  | _, _ => none

/-- The list comprehension `[giveRC(d.rstrip('\r\n').split('\t'), column) for d in du]`
(line 75), propagating an `IndexError` as `none`. -/
def chunkRC (col : Nat) : List String → Option (List (String × String))
  | [] => some []
  | d :: rest =>
    match giveRC (fieldsOf d) col, chunkRC col rest with
    | some p, some ps => some (p :: ps)
    | _, _ => none

/-- The `di` accumulation loop of `map2dict` (lines 77-83): emit
`(d[0], 0 if not d[1] else d[1].count(':'))` whenever the read name differs
from the `last_read` cursor, updating the cursor.  Returns the final cursor
and the emitted pairs. -/
def diLoop (lastRead : Option String) :
    List (String × String) → Option String × List (String × Nat)
  | [] => (lastRead, [])
  | d :: rest =>
    if some d.fst = lastRead then diLoop lastRead rest
    else
      let t := diLoop (some d.fst) rest
      (t.fst, (d.fst, mismatches d.snd) :: t.snd)

/-- A Reference Batch: the association list `base` that `dict(base)` is built
from.  In a Python dict built from pairs, a later pair overwrites an earlier
one with the same key. -/
abbrev Batch := List (String × Nat)

/-- The key list of a batch. -/
def batchKeys (b : Batch) : List String :=
  b.map Prod.fst

/-- Python dict lookup on the association list: the last binding of a key
wins; `none` when the key is absent (so `has_key` is `(dictLookup b k).isSome`). -/
def dictLookup (b : Batch) (k : String) : Option Nat :=
  (b.reverse.find? (fun p => p.fst == k)).map Prod.snd

/-- The chunked accumulation loop of `map2dict` (lines 68-100).  `lastRead`
and `base` are the loop state; a batch is yielded as soon as
`len(base) > limit_counts_reads` holds after a chunk, and a final nonempty
`base` is yielded at end of file.  An empty chunk is `readlines` reporting
end of file (`if not du: break`). -/
def map2dictGo (col limit : Nat) (lastRead : Option String)
    (base : List (String × Nat)) : List (List String) → Option (List Batch)
  | [] => some (if base.isEmpty then [] else [base])
  | chunk :: rest =>
    if chunk.isEmpty then some (if base.isEmpty then [] else [base])
    else
      match chunkRC col chunk with
      | none => none
      | some du =>
        let t := diLoop lastRead du
        let base2 := base ++ t.snd
        if base2.length > limit then
          match map2dictGo col limit t.fst [] rest with
          | none => none
          | some bs => some (base2 :: bs)
        else
          map2dictGo col limit t.fst base2 rest

/-- `map2dict(a_file, column, limit_counts_reads, ...)` (lines 62-101), with
the first file given as its `readlines(size_buffer)` chunks. -/
def map2dict (col limit : Nat) (chunks : List (List String)) :
    Option (List Batch) :=
  map2dictGo col limit none [] chunks

/-- The per-line state of the filter loop (lines 187-189); it is initialized
once, before the loop over batches, and never reset between passes. -/
structure St where
  lastread : Option String
  lastappended : Bool
  lastfinal : Bool
  deriving DecidableEq

/-- Where one line of the second file (or residue) goes. -/
inductive Dest
  | toFinal
  | toResidue
  | dropped
  deriving DecidableEq

/-- The decision for a line that starts a new Read Group (lines 216-232):
look the name up in the batch; if found, read the mismatch field `r[mc]`
(`none` models its `IndexError` on a too-short line) and test
`baza[rr] >= m`; if absent, send the line to the new residue.  Python never
reads `r[mc]` in the absent case; here the absent arm simply ignores it,
which is the same function. -/
def freshDecision (mc : Nat) (baza : Batch) (st : St) (line : String) :
    Option (St × Dest) :=
  match dictLookup baza (nameOf line), (fieldsOf line).get? mc with
  | none, _ => some (⟨some (nameOf line), true, false⟩, Dest.toResidue)
  | some _, none => none
  | some refCount, some v =>
    if refCount ≥ mismatches v then
      some (⟨some (nameOf line), true, true⟩, Dest.toFinal)
    else some (⟨some (nameOf line), false, st.lastfinal⟩, Dest.dropped)

/-- One line of the filter loop (lines 202-232).  If the name equals
`lastread`, the carried decision is reused without reinterpreting any field;
otherwise `freshDecision` tests the line against the batch. -/
def stepLine (mc : Nat) (baza : Batch) (st : St) (line : String) :
    Option (St × Dest) :=
  if some (nameOf line) = st.lastread then
    if st.lastappended = false then some (st, Dest.dropped)
    else if st.lastfinal then some (st, Dest.toFinal)
    else some (st, Dest.toResidue)
  else freshDecision mc baza st line

/-- One Batch Filter Pass over a source stream: returns the final state, the
new residue lines and the lines appended to the final output, each in source
order (lines 194-238; the per-chunk buffering of `data`/`data_final` flushes
both buffers once per chunk in line order, so it concatenates to exactly
these lists). -/
def runPass (mc : Nat) (baza : Batch) (st : St) :
    List String → Option (St × List String × List String)
  | [] => some (st, [], [])
  | line :: rest =>
    match stepLine mc baza st line with
    | none => none
    | some (st1, d) =>
      match runPass mc baza st1 rest with
      | none => none
      | some (st2, res, fin) =>
        match d with
        | Dest.toFinal => some (st2, res, line :: fin)
        | Dest.toResidue => some (st2, line :: res, fin)
        | Dest.dropped => some (st2, res, fin)

/-- The driver loop over batches (lines 190-246) followed by the final
verbatim append of the last residue (lines 248-258): each batch filters the
current residue, finalized lines are appended to the output as they are
produced, and after the last batch the whole remaining residue is appended. -/
def driverGo (mc : Nat) :
    List Batch → St → List String → List String → Option (List String)
  | [], _, cur, accF => some (accF ++ cur)
  | baza :: rest, st, cur, accF =>
    match runPass mc baza st cur with
    | none => none
    | some (st1, res, fin) => driverGo mc rest st1 res (accF ++ fin)

/-- The whole program on parsed inputs: build the batches from the first
file's chunks, then run the driver loop on the second file, starting from
the state `lastread = None, lastappended = False, lastfinal = False`. -/
def runMain (mc limit : Nat) (chunks1 : List (List String))
    (file2 : List String) : Option (List String) :=
  match map2dict mc limit chunks1 with
  | none => none
  | some batches => driverGo mc batches ⟨none, false, false⟩ file2 []

/-- Collapse consecutive repeats relative to an incoming cursor, exactly the
shape of the `last_read` deduplication. -/
def dedupConsec (last : Option String) : List String → List String
  | [] => []
  | x :: xs =>
    if some x = last then dedupConsec last xs else x :: dedupConsec (some x) xs

/-- The `last_read` cursor after a list of names. -/
def cursor (last : Option String) (xs : List String) : Option String :=
  xs.foldl (fun _ x => some x) last

/-- The contiguity precondition on a list of read names: all records of a
read name are consecutive, i.e. collapsing consecutive repeats leaves no
duplicate. -/
abbrev Contiguous (l : List String) : Prop :=
  (dedupConsec none l).Nodup

/-- No line of `l` has read name `nm`. -/
abbrev NmFree (nm : String) (l : List String) : Prop :=
  ∀ x ∈ l, nameOf x ≠ nm

/-- Every line of `l` has read name `nm`. -/
abbrev AllNm (nm : String) (l : List String) : Prop :=
  ∀ x ∈ l, nameOf x = nm

/-- The lines named `nm` form one contiguous block of `cur` (possibly empty):
the per-name form of the contiguity precondition. -/
def Blocky (nm : String) (cur : List String) : Prop :=
  ∃ xs blk ys, cur = xs ++ blk ++ ys ∧ NmFree nm xs ∧ AllNm nm blk ∧ NmFree nm ys

/-- The lines of `l` whose read name is `nm`. -/
def nmFilter (nm : String) (l : List String) : List String :=
  l.filter (fun x => nameOf x == nm)

/-- Executable sublist test (order-preserving containment). -/
def isSublist : List String → List String → Bool
  | [], _ => true
  | _ :: _, [] => false
  | a :: as, b :: bs => if a == b then isSublist as bs else isSublist (a :: as) bs

/-- File-name bookkeeping of the driver (lines 183-261): `none` is the
original second input file, `some k` the k-th temporary file.  State is
`(in1, ou1, first_flag, next fresh temp, removed files)`; each iteration
removes the old `in1` unless it is still the first one, then shifts
`in1 := ou1` and allocates a fresh `ou1`. -/
def driverLoopFiles :
    Nat → Option Nat × Option Nat × Bool × Nat × List (Option Nat) →
      Option Nat × Option Nat × Bool × Nat × List (Option Nat)
  | 0, s => s
  | n + 1, (in1, ou1, ff, k, rem) =>
    driverLoopFiles n (ou1, some k, false, k + 1, if ff then rem else rem ++ [in1])

/-- The removals after the loop: `os.remove(ou1)` of the unused placeholder
(line 247), then `os.remove(in1)` unless zero batches ran (lines 260-261). -/
def finalRemovals :
    Option Nat × Option Nat × Bool × Nat × List (Option Nat) → List (Option Nat)
  | (in1, ou1, ff, _, rem) =>
    if ff then rem ++ [ou1] else (rem ++ [ou1]) ++ [in1]

/-- All files removed by a normally completing run with `n` batches. -/
def driverRemovals (n : Nat) : List (Option Nat) :=
  finalRemovals (driverLoopFiles n (none, some 0, true, 1, []))

/-- Sample MAP lines used by the concrete witnesses and counterexamples:
8 tab-separated fields; field 7 is the mismatch descriptor list. -/
def lineA1 : String := "a\t+\tchr\t0\tAC\tII\t0\t"

def lineB1 : String := "b\t+\tchr\t0\tAC\tII\t0\t"

def lineA2 : String := "a\t-\tchr\t5\tGG\tII\t0\t"

def lineB2 : String := "b\t-\tchr\t5\tGG\tII\t0\t5:A>T"

/-! ### Invariant of the temporary-file bookkeeping -/

/-- Invariant of the driver's file state: `in1` can still be the original
second input only while `first_flag` holds, `ou1` is always a temporary
file, and no removed file is the original second input. -/
def FilesInv : Option Nat × Option Nat × Bool × Nat × List (Option Nat) → Prop
  | (in1, ou1, ff, _, rem) => (in1 = none → ff = true) ∧ ou1 ≠ none ∧ none ∉ rem

lemma driverLoopFiles_inv :
    ∀ (n : Nat) (s : Option Nat × Option Nat × Bool × Nat × List (Option Nat)),
      FilesInv s → FilesInv (driverLoopFiles n s) := by
  intro n
  induction n with
  | zero => intro s h; exact h
  | succ m ih =>
    rintro ⟨in1, ou1, ff, k, rem⟩ ⟨h1, h2, h3⟩
    show FilesInv (driverLoopFiles m _)
    apply ih
    refine ⟨fun h => absurd h h2, by simp, ?_⟩
    cases ff with
    | true => rw [if_pos rfl]; exact h3
    | false =>
      have hin : in1 ≠ none := fun h => by simpa using h1 h
      rw [if_neg (by simp)]
      intro hmem
      rcases List.mem_append.mp hmem with h | h
      · exact h3 h
      · exact hin (List.mem_singleton.mp h).symm

lemma finalRemovals_inv
    (s : Option Nat × Option Nat × Bool × Nat × List (Option Nat))
    (h : FilesInv s) : none ∉ finalRemovals s := by
  obtain ⟨in1, ou1, ff, k, rem⟩ := s
  obtain ⟨h1, h2, h3⟩ := h
  show none ∉ (if ff = true then rem ++ [ou1] else (rem ++ [ou1]) ++ [in1])
  cases ff with
  | true =>
    rw [if_pos rfl]
    intro hmem
    rcases List.mem_append.mp hmem with h | h
    · exact h3 h
    · exact h2 (List.mem_singleton.mp h).symm
  | false =>
    have hin : in1 ≠ none := fun h => by simpa using h1 h
    rw [if_neg (by simp)]
    intro hmem
    rcases List.mem_append.mp hmem with h | h
    · rcases List.mem_append.mp h with h' | h'
      · exact h3 h'
      · exact h2 (List.mem_singleton.mp h').symm
    · exact hin (List.mem_singleton.mp h).symm

/-! ### Basic lemmas about the Batch Filter Pass -/

lemma stepLine_lastread (mc : Nat) (baza : Batch) (st st1 : St) (line : String)
    (d : Dest) (h : stepLine mc baza st line = some (st1, d)) :
    st1.lastread = some (nameOf line) := by
  unfold stepLine at h
  split at h
  · next hc =>
    split at h
    · simp only [Option.some.injEq, Prod.mk.injEq] at h
      obtain ⟨rfl, -⟩ := h
      exact hc.symm
    · split at h <;>
        (simp only [Option.some.injEq, Prod.mk.injEq] at h
         obtain ⟨rfl, -⟩ := h
         exact hc.symm)
  · unfold freshDecision at h
    split at h
    · simp only [Option.some.injEq, Prod.mk.injEq] at h
      obtain ⟨rfl, -⟩ := h
      rfl
    · exact absurd h (by simp)
    · split at h <;>
        (simp only [Option.some.injEq, Prod.mk.injEq] at h
         obtain ⟨rfl, -⟩ := h
         rfl)

lemma runPass_append_some (mc : Nat) (baza : Batch) :
    ∀ (xs : List String) (st st1 : St) (r1 f1 : List String) (ys : List String),
      runPass mc baza st xs = some (st1, r1, f1) →
      runPass mc baza st (xs ++ ys) =
        (runPass mc baza st1 ys).map (fun t => (t.1, r1 ++ t.2.1, f1 ++ t.2.2)) := by
  intro xs
  induction xs with
  | nil =>
    intro st st1 r1 f1 ys h
    simp only [runPass, Option.some.injEq, Prod.mk.injEq] at h
    obtain ⟨rfl, rfl, rfl⟩ := h
    simp only [List.nil_append]
    cases hys : runPass mc baza st ys with
    | none => rfl
    | some t => obtain ⟨a, b, c⟩ := t; simp
  | cons l rest ih =>
    intro st st1 r1 f1 ys h
    rw [List.cons_append]
    cases hs : stepLine mc baza st l with
    | none => simp only [runPass, hs] at h; exact absurd h (by simp)
    | some t =>
      obtain ⟨stA, d⟩ := t
      simp only [runPass, hs] at h ⊢
      cases hr : runPass mc baza stA rest with
      | none => simp only [hr] at h; exact absurd h (by simp)
      | some tr =>
        obtain ⟨stB, res, fin⟩ := tr
        simp only [hr] at h
        rw [ih stA stB res fin ys hr]
        cases d with
        | toFinal =>
          simp only [Option.some.injEq, Prod.mk.injEq] at h
          obtain ⟨rfl, rfl, rfl⟩ := h
          cases hys : runPass mc baza stB ys with
          | none => rfl
          | some t2 => obtain ⟨a, b, c⟩ := t2; simp
        | toResidue =>
          simp only [Option.some.injEq, Prod.mk.injEq] at h
          obtain ⟨rfl, rfl, rfl⟩ := h
          cases hys : runPass mc baza stB ys with
          | none => rfl
          | some t2 => obtain ⟨a, b, c⟩ := t2; simp
        | dropped =>
          simp only [Option.some.injEq, Prod.mk.injEq] at h
          obtain ⟨rfl, rfl, rfl⟩ := h
          cases hys : runPass mc baza stB ys with
          | none => rfl
          | some t2 => obtain ⟨a, b, c⟩ := t2; simp

lemma runPass_sublists (mc : Nat) (baza : Batch) :
    ∀ (lines : List String) (st st' : St) (res fin : List String),
      runPass mc baza st lines = some (st', res, fin) →
      List.Sublist res lines ∧ List.Sublist fin lines := by
  intro lines
  induction lines with
  | nil =>
    intro st st' res fin h
    simp only [runPass, Option.some.injEq, Prod.mk.injEq] at h
    obtain ⟨-, rfl, rfl⟩ := h
    exact ⟨List.nil_sublist _, List.nil_sublist _⟩
  | cons l rest ih =>
    intro st st' res fin h
    cases hs : stepLine mc baza st l with
    | none => simp only [runPass, hs] at h; exact absurd h (by simp)
    | some t =>
      obtain ⟨stA, d⟩ := t
      simp only [runPass, hs] at h
      cases hr : runPass mc baza stA rest with
      | none => simp only [hr] at h; exact absurd h (by simp)
      | some tr =>
        obtain ⟨stB, res0, fin0⟩ := tr
        simp only [hr] at h
        obtain ⟨hres0, hfin0⟩ := ih stA stB res0 fin0 hr
        cases d with
        | toFinal =>
          simp only [Option.some.injEq, Prod.mk.injEq] at h
          obtain ⟨-, rfl, rfl⟩ := h
          exact ⟨hres0.cons l, hfin0.cons₂ l⟩
        | toResidue =>
          simp only [Option.some.injEq, Prod.mk.injEq] at h
          obtain ⟨-, rfl, rfl⟩ := h
          exact ⟨hres0.cons₂ l, hfin0.cons l⟩
        | dropped =>
          simp only [Option.some.injEq, Prod.mk.injEq] at h
          obtain ⟨-, rfl, rfl⟩ := h
          exact ⟨hres0.cons l, hfin0.cons l⟩

lemma runPass_lastread (mc : Nat) (baza : Batch) :
    ∀ (lines : List String) (st st' : St) (res fin : List String),
      runPass mc baza st lines = some (st', res, fin) →
      st' = st ∨ ∃ l ∈ lines, st'.lastread = some (nameOf l) := by
  intro lines
  induction lines with
  | nil =>
    intro st st' res fin h
    simp only [runPass, Option.some.injEq, Prod.mk.injEq] at h
    exact Or.inl h.1.symm
  | cons l rest ih =>
    intro st st' res fin h
    cases hs : stepLine mc baza st l with
    | none => simp only [runPass, hs] at h; exact absurd h (by simp)
    | some t =>
      obtain ⟨stA, d⟩ := t
      simp only [runPass, hs] at h
      cases hr : runPass mc baza stA rest with
      | none => simp only [hr] at h; exact absurd h (by simp)
      | some tr =>
        obtain ⟨stB, res0, fin0⟩ := tr
        simp only [hr] at h
        have hstB : st' = stB := by
          cases d <;>
            (simp only [Option.some.injEq, Prod.mk.injEq] at h; exact h.1.symm)
        rcases ih stA stB res0 fin0 hr with h1 | ⟨l2, hl2, h2⟩
        · refine Or.inr ⟨l, by simp, ?_⟩
          rw [hstB, h1]
          exact stepLine_lastread mc baza st stA l d hs
        · refine Or.inr ⟨l2, by simp [hl2], ?_⟩
          rw [hstB]
          exact h2

/-! ### Name-filter lemmas -/

lemma nmFilter_append (nm : String) (a b : List String) :
    nmFilter nm (a ++ b) = nmFilter nm a ++ nmFilter nm b := by
  simp [nmFilter]

lemma nmFilter_of_free (nm : String) (l : List String) (h : NmFree nm l) :
    nmFilter nm l = [] := by
  induction l with
  | nil => rfl
  | cons x xs ih =>
    have hx : (nameOf x == nm) = false :=
      beq_eq_false_iff_ne.mpr (h x (by simp))
    simp only [nmFilter, List.filter_cons, hx, Bool.false_eq_true, if_false]
    exact ih (fun y hy => h y (by simp [hy]))

lemma nmFilter_of_all (nm : String) (l : List String) (h : AllNm nm l) :
    nmFilter nm l = l := by
  induction l with
  | nil => rfl
  | cons x xs ih =>
    have hx : (nameOf x == nm) = true := beq_iff_eq.mpr (h x (by simp))
    simp only [nmFilter, List.filter_cons, hx, if_true]
    exact congrArg (List.cons x) (ih (fun y hy => h y (by simp [hy])))

lemma NmFree.of_sublist {nm : String} {l1 l2 : List String}
    (h : NmFree nm l2) (hs : List.Sublist l1 l2) : NmFree nm l1 :=
  fun x hx => h x (hs.subset hx)

/-! ### A whole Read Group is processed uniformly -/

lemma runPass_reuse_res (mc : Nat) (baza : Batch) (nm : String) :
    ∀ (lines : List String) (st : St), AllNm nm lines → st.lastread = some nm →
      st.lastappended = true → st.lastfinal = false →
      runPass mc baza st lines = some (st, lines, []) := by
  intro lines
  induction lines with
  | nil => intro st _ _ _ _; rfl
  | cons l rest ih =>
    intro st hall hlr happ hfin
    have hstep : stepLine mc baza st l = some (st, Dest.toResidue) := by
      unfold stepLine
      rw [hall l (by simp), hlr, if_pos rfl, happ, hfin]
      simp
    simp only [runPass, hstep, ih st (fun y hy => hall y (by simp [hy])) hlr happ hfin]

lemma runPass_reuse_fin (mc : Nat) (baza : Batch) (nm : String) :
    ∀ (lines : List String) (st : St), AllNm nm lines → st.lastread = some nm →
      st.lastappended = true → st.lastfinal = true →
      runPass mc baza st lines = some (st, [], lines) := by
  intro lines
  induction lines with
  | nil => intro st _ _ _ _; rfl
  | cons l rest ih =>
    intro st hall hlr happ hfin
    have hstep : stepLine mc baza st l = some (st, Dest.toFinal) := by
      unfold stepLine
      rw [hall l (by simp), hlr, if_pos rfl, happ, hfin]
      simp
    simp only [runPass, hstep, ih st (fun y hy => hall y (by simp [hy])) hlr happ hfin]

lemma runPass_reuse_drop (mc : Nat) (baza : Batch) (nm : String) :
    ∀ (lines : List String) (st : St), AllNm nm lines → st.lastread = some nm →
      st.lastappended = false →
      runPass mc baza st lines = some (st, [], []) := by
  intro lines
  induction lines with
  | nil => intro st _ _ _; rfl
  | cons l rest ih =>
    intro st hall hlr happ
    have hstep : stepLine mc baza st l = some (st, Dest.dropped) := by
      unfold stepLine
      rw [hall l (by simp), hlr, if_pos rfl, happ]
      simp
    simp only [runPass, hstep, ih st (fun y hy => hall y (by simp [hy])) hlr happ]

/-! ### Equation lemmas for a fresh read name -/

lemma stepLine_fresh (mc : Nat) (baza : Batch) (st : St) (line : String)
    (h : ¬ some (nameOf line) = st.lastread) :
    stepLine mc baza st line = freshDecision mc baza st line := by
  unfold stepLine
  rw [if_neg h]

lemma freshDecision_absent (mc : Nat) (baza : Batch) (st : St) (line : String)
    (h : dictLookup baza (nameOf line) = none) :
    freshDecision mc baza st line =
      some (⟨some (nameOf line), true, false⟩, Dest.toResidue) := by
  unfold freshDecision
  rw [h]

lemma freshDecision_short (mc : Nat) (baza : Batch) (st : St) (line : String)
    (R : Nat) (hR : dictLookup baza (nameOf line) = some R)
    (hget : (fieldsOf line).get? mc = none) :
    freshDecision mc baza st line = none := by
  unfold freshDecision
  rw [hR, hget]

lemma freshDecision_keep (mc : Nat) (baza : Batch) (st : St) (line : String)
    (R : Nat) (v : String) (hR : dictLookup baza (nameOf line) = some R)
    (hget : (fieldsOf line).get? mc = some v) (hge : R ≥ mismatches v) :
    freshDecision mc baza st line =
      some (⟨some (nameOf line), true, true⟩, Dest.toFinal) := by
  unfold freshDecision
  rw [hR, hget]
  simp only [if_pos hge]

lemma freshDecision_drop (mc : Nat) (baza : Batch) (st : St) (line : String)
    (R : Nat) (v : String) (hR : dictLookup baza (nameOf line) = some R)
    (hget : (fieldsOf line).get? mc = some v) (hlt : ¬ R ≥ mismatches v) :
    freshDecision mc baza st line =
      some (⟨some (nameOf line), false, st.lastfinal⟩, Dest.dropped) := by
  unfold freshDecision
  rw [hR, hget]
  simp only [if_neg hlt]

/-! ### One nonempty Read Group is processed as a unit -/

lemma runPass_block (mc : Nat) (baza : Batch) (nm : String) (blk : List String)
    (st st' : St) (res fin : List String) (hne : blk ≠ []) (hall : AllNm nm blk)
    (hinv : st.lastread = some nm → st.lastappended = true ∧ st.lastfinal = false)
    (h : runPass mc baza st blk = some (st', res, fin)) :
    (res = blk ∧ fin = [] ∧ st' = ⟨some nm, true, false⟩) ∨
    (res = [] ∧ fin = blk ∧ st' = ⟨some nm, true, true⟩) ∨
    (res = [] ∧ fin = [] ∧ st'.lastread = some nm ∧ st'.lastappended = false) := by
  obtain ⟨l0, ls, rfl⟩ : ∃ l0 ls, blk = l0 :: ls := by
    cases blk with
    | nil => exact absurd rfl hne
    | cons a b => exact ⟨a, b, rfl⟩
  have hname : nameOf l0 = nm := hall l0 (by simp)
  have hallLs : AllNm nm ls := fun y hy => hall y (by simp [hy])
  by_cases hreuse : some (nameOf l0) = st.lastread
  · have hlr : st.lastread = some nm := by rw [← hreuse, hname]
    obtain ⟨happ, hfin⟩ := hinv hlr
    have hstv : st = ⟨some nm, true, false⟩ := by
      obtain ⟨a, b, c⟩ := st
      simp only [St.mk.injEq]
      exact ⟨hlr, happ, hfin⟩
    have hstep : stepLine mc baza st l0 = some (st, Dest.toResidue) := by
      unfold stepLine
      rw [if_pos hreuse, happ, hfin]
      simp
    have hrest := runPass_reuse_res mc baza nm ls st hallLs hlr happ hfin
    simp only [runPass, hstep, hrest, Option.some.injEq, Prod.mk.injEq] at h
    obtain ⟨hst, hres, hfin2⟩ := h
    exact Or.inl ⟨hres.symm, hfin2.symm, by rw [← hst, hstv]⟩
  · have hstep := stepLine_fresh mc baza st l0 hreuse
    cases hlook : dictLookup baza (nameOf l0) with
    | none =>
      rw [freshDecision_absent mc baza st l0 hlook, hname] at hstep
      have hrest := runPass_reuse_res mc baza nm ls ⟨some nm, true, false⟩
        hallLs rfl rfl rfl
      simp only [runPass, hstep, hrest, Option.some.injEq, Prod.mk.injEq] at h
      obtain ⟨hst, hres, hfin2⟩ := h
      exact Or.inl ⟨hres.symm, hfin2.symm, hst.symm⟩
    | some R =>
      cases hget : (fieldsOf l0).get? mc with
      | none =>
        rw [freshDecision_short mc baza st l0 R hlook hget] at hstep
        simp only [runPass, hstep] at h
        exact absurd h (by simp)
      | some v =>
        by_cases hge : R ≥ mismatches v
        · rw [freshDecision_keep mc baza st l0 R v hlook hget hge, hname] at hstep
          have hrest := runPass_reuse_fin mc baza nm ls ⟨some nm, true, true⟩
            hallLs rfl rfl rfl
          simp only [runPass, hstep, hrest, Option.some.injEq, Prod.mk.injEq] at h
          obtain ⟨hst, hres, hfin2⟩ := h
          exact Or.inr (Or.inl ⟨hres.symm, hfin2.symm, hst.symm⟩)
        · rw [freshDecision_drop mc baza st l0 R v hlook hget hge, hname] at hstep
          have hrest := runPass_reuse_drop mc baza nm ls
            ⟨some nm, false, st.lastfinal⟩ hallLs rfl rfl
          simp only [runPass, hstep, hrest, Option.some.injEq, Prod.mk.injEq] at h
          obtain ⟨hst, hres, hfin2⟩ := h
          refine Or.inr (Or.inr ⟨hres.symm, hfin2.symm, ?_, ?_⟩)
          · rw [← hst]
          · rw [← hst]

/-! ### A segment free of the name contributes nothing to its filter -/

lemma runPass_free (mc : Nat) (baza : Batch) (nm : String) (lines : List String)
    (st st' : St) (res fin : List String) (hfree : NmFree nm lines)
    (h : runPass mc baza st lines = some (st', res, fin)) :
    nmFilter nm res = [] ∧ nmFilter nm fin = [] ∧
      (st'.lastread = some nm → st' = st) := by
  obtain ⟨hres, hfin⟩ := runPass_sublists mc baza lines st st' res fin h
  refine ⟨nmFilter_of_free nm res (hfree.of_sublist hres),
    nmFilter_of_free nm fin (hfree.of_sublist hfin), ?_⟩
  intro hlr
  rcases runPass_lastread mc baza lines st st' res fin h with h1 | ⟨l, hl, h2⟩
  · exact h1
  · rw [h2] at hlr
    exact absurd (Option.some.inj hlr) (hfree l hl)

lemma runPass_append_none (mc : Nat) (baza : Batch) :
    ∀ (xs ys : List String) (st : St), runPass mc baza st xs = none →
      runPass mc baza st (xs ++ ys) = none := by
  intro xs
  induction xs with
  | nil => intro ys st h; exact absurd h (by simp [runPass])
  | cons l rest ih =>
    intro ys st h
    rw [List.cons_append]
    cases hs : stepLine mc baza st l with
    | none => simp only [runPass, hs]
    | some t =>
      obtain ⟨stA, d⟩ := t
      simp only [runPass, hs] at h ⊢
      cases hr : runPass mc baza stA rest with
      | none => rw [ih ys stA hr]
      | some tr =>
        obtain ⟨stB, res, fin⟩ := tr
        rw [hr] at h
        cases d <;> simp at h

lemma nmFilter_cons_pos (nm l : String) (rest : List String)
    (h : nameOf l = nm) : nmFilter nm (l :: rest) = l :: nmFilter nm rest := by
  simp [nmFilter, List.filter_cons, h]

lemma nmFilter_cons_neg (nm l : String) (rest : List String)
    (h : nameOf l ≠ nm) : nmFilter nm (l :: rest) = nmFilter nm rest := by
  simp [nmFilter, List.filter_cons, h]

lemma nmFilter_decomp (nm : String) (xs blk ys : List String)
    (hxs : NmFree nm xs) (hblk : AllNm nm blk) (hys : NmFree nm ys) :
    nmFilter nm (xs ++ blk ++ ys) = blk := by
  rw [List.append_assoc, nmFilter_append nm xs (blk ++ ys),
    nmFilter_append nm blk ys, nmFilter_of_free nm xs hxs,
    nmFilter_of_all nm blk hblk, nmFilter_of_free nm ys hys]
  simp

/-- One Batch Filter Pass on a source whose `nm`-lines form one block:
the residue is again blocky for `nm`, the block is sent as a unit to exactly
one of residue/final/nowhere, and if the block is still in the residue and
the final state's cursor is `nm` then that state carries the
keep-not-finalized decision. -/
lemma pass_blocky (mc : Nat) (baza : Batch) (nm : String) (xs blk ys : List String)
    (st st' : St) (res fin : List String)
    (hxs : NmFree nm xs) (hblk : AllNm nm blk) (hys : NmFree nm ys)
    (hinv : st.lastread = some nm → nmFilter nm (xs ++ blk ++ ys) ≠ [] →
      st.lastappended = true ∧ st.lastfinal = false)
    (h : runPass mc baza st (xs ++ blk ++ ys) = some (st', res, fin)) :
    Blocky nm res ∧
    ((nmFilter nm res = blk ∧ nmFilter nm fin = []) ∨
     (nmFilter nm res = [] ∧ nmFilter nm fin = blk) ∨
     (nmFilter nm res = [] ∧ nmFilter nm fin = [])) ∧
    (st'.lastread = some nm → nmFilter nm res ≠ [] →
      st'.lastappended = true ∧ st'.lastfinal = false) := by
  rw [List.append_assoc] at h
  cases hx : runPass mc baza st xs with
  | none =>
    rw [runPass_append_none mc baza xs (blk ++ ys) st hx] at h
    exact absurd h (by simp)
  | some tx =>
    obtain ⟨stx, resx, finx⟩ := tx
    rw [runPass_append_some mc baza xs st stx resx finx (blk ++ ys) hx] at h
    cases hby : runPass mc baza stx (blk ++ ys) with
    | none => rw [hby] at h; exact absurd h (by simp)
    | some tby =>
      obtain ⟨styM, resM, finM⟩ := tby
      rw [hby] at h
      simp only [Option.map_some', Option.some.injEq, Prod.mk.injEq] at h
      obtain ⟨h1, h2, h3⟩ := h
      cases hb : runPass mc baza stx blk with
      | none =>
        rw [runPass_append_none mc baza blk ys stx hb] at hby
        exact absurd hby (by simp)
      | some tb =>
        obtain ⟨stb, resb, finb⟩ := tb
        rw [runPass_append_some mc baza blk stx stb resb finb ys hb] at hby
        cases hy : runPass mc baza stb ys with
        | none => rw [hy] at hby; exact absurd hby (by simp)
        | some ty =>
          obtain ⟨sty, resy, finy⟩ := ty
          rw [hy] at hby
          simp only [Option.map_some', Option.some.injEq, Prod.mk.injEq] at hby
          obtain ⟨hby1, hby2, hby3⟩ := hby
          have hres : res = resx ++ (resb ++ resy) := by rw [← h2, ← hby2]
          have hfin : fin = finx ++ (finb ++ finy) := by rw [← h3, ← hby3]
          have hst' : st' = sty := by rw [← h1, ← hby1]
          obtain ⟨hfx1, hfx2, hfx3⟩ :=
            runPass_free mc baza nm xs st stx resx finx hxs hx
          obtain ⟨hfy1, hfy2, hfy3⟩ :=
            runPass_free mc baza nm ys stb sty resy finy hys hy
          have hfreex : NmFree nm resx :=
            hxs.of_sublist (runPass_sublists mc baza xs st stx resx finx hx).1
          have hfreey : NmFree nm resy :=
            hys.of_sublist (runPass_sublists mc baza ys stb sty resy finy hy).1
          by_cases hbe : blk = []
          · subst hbe
            simp only [runPass, Option.some.injEq, Prod.mk.injEq] at hb
            obtain ⟨hstb, hresb, hfinb⟩ := hb
            have hfres : nmFilter nm res = [] := by
              rw [hres, nmFilter_append, nmFilter_append, hfx1, ← hresb, hfy1]
              rfl
            have hffin : nmFilter nm fin = [] := by
              rw [hfin, nmFilter_append, nmFilter_append, hfx2, ← hfinb, hfy2]
              rfl
            refine ⟨⟨resx, [], resy, ?_, hfreex, ?_, hfreey⟩,
              Or.inr (Or.inr ⟨hfres, hffin⟩), ?_⟩
            · rw [hres, ← hresb]
              simp
            · intro y hy2
              exact absurd hy2 (List.not_mem_nil y)
            · intro _ hne2
              exact absurd hfres hne2
          · have hinvx : stx.lastread = some nm →
                stx.lastappended = true ∧ stx.lastfinal = false := by
              intro hlrx
              have hsx := hfx3 hlrx
              rw [hsx] at hlrx ⊢
              refine hinv hlrx ?_
              rw [nmFilter_decomp nm xs blk ys hxs hblk hys]
              exact hbe
            rcases runPass_block mc baza nm blk stx stb resb finb hbe hblk hinvx hb
              with ⟨hrb, hfb, hsb⟩ | ⟨hrb, hfb, hsb⟩ | ⟨hrb, hfb, hsb1, hsb2⟩
            · -- whole block to the residue, not finalized
              have hfres : nmFilter nm res = blk := by
                rw [hres, nmFilter_append, nmFilter_append, hfx1, hrb,
                  nmFilter_of_all nm blk hblk, hfy1]
                simp
              have hffin : nmFilter nm fin = [] := by
                rw [hfin, nmFilter_append, nmFilter_append, hfx2, hfb, hfy2]
                rfl
              refine ⟨⟨resx, blk, resy, ?_, hfreex, hblk, hfreey⟩,
                Or.inl ⟨hfres, hffin⟩, ?_⟩
              · rw [hres, hrb, List.append_assoc]
              · intro hlr _
                rw [hst'] at hlr ⊢
                rw [hfy3 hlr, hsb]
                exact ⟨rfl, rfl⟩
            · -- whole block finalized
              have hfres : nmFilter nm res = [] := by
                rw [hres, nmFilter_append, nmFilter_append, hfx1, hrb, hfy1]
                rfl
              have hffin : nmFilter nm fin = blk := by
                rw [hfin, nmFilter_append, nmFilter_append, hfx2, hfb,
                  nmFilter_of_all nm blk hblk, hfy2]
                simp
              refine ⟨⟨resx, [], resy, ?_, hfreex, ?_, hfreey⟩,
                Or.inr (Or.inl ⟨hfres, hffin⟩), ?_⟩
              · rw [hres, hrb]
                simp
              · intro y hy2
                exact absurd hy2 (List.not_mem_nil y)
              · intro _ hne2
                exact absurd hfres hne2
            · -- whole block dropped
              have hfres : nmFilter nm res = [] := by
                rw [hres, nmFilter_append, nmFilter_append, hfx1, hrb, hfy1]
                rfl
              have hffin : nmFilter nm fin = [] := by
                rw [hfin, nmFilter_append, nmFilter_append, hfx2, hfb, hfy2]
                rfl
              refine ⟨⟨resx, [], resy, ?_, hfreex, ?_, hfreey⟩,
                Or.inr (Or.inr ⟨hfres, hffin⟩), ?_⟩
              · rw [hres, hrb]
                simp
              · intro y hy2
                exact absurd hy2 (List.not_mem_nil y)
              · intro _ hne2
                exact absurd hfres hne2

/-- The driver loop keeps or drops the `nm`-block atomically: across all
batches and the final verbatim append, the `nm`-lines of the output are
either the `nm`-lines already in the output accumulator plus all `nm`-lines
of the current residue, or just the accumulator's. -/
lemma driver_blocky (mc : Nat) (nm : String) :
    ∀ (batches : List Batch) (st : St) (cur accF out : List String),
      Blocky nm cur →
      (st.lastread = some nm → nmFilter nm cur ≠ [] →
        st.lastappended = true ∧ st.lastfinal = false) →
      driverGo mc batches st cur accF = some out →
      nmFilter nm out = nmFilter nm accF ++ nmFilter nm cur ∨
        nmFilter nm out = nmFilter nm accF := by
  intro batches
  induction batches with
  | nil =>
    intro st cur accF out _ _ h
    simp only [driverGo, Option.some.injEq] at h
    subst h
    exact Or.inl (nmFilter_append nm accF cur)
  | cons baza rest ih =>
    intro st cur accF out hb hinv h
    obtain ⟨xs, blk, ys, rfl, hxs, hblk, hys⟩ := hb
    simp only [driverGo] at h
    cases hp : runPass mc baza st (xs ++ blk ++ ys) with
    | none => rw [hp] at h; exact absurd h (by simp)
    | some tp =>
      obtain ⟨st1, res, fin⟩ := tp
      rw [hp] at h
      obtain ⟨hbres, hfate, hstinv⟩ :=
        pass_blocky mc baza nm xs blk ys st st1 res fin hxs hblk hys hinv hp
      have hcur : nmFilter nm (xs ++ blk ++ ys) = blk :=
        nmFilter_decomp nm xs blk ys hxs hblk hys
      rcases hfate with ⟨hr, hf⟩ | ⟨hr, hf⟩ | ⟨hr, hf⟩
      · rcases ih st1 res (accF ++ fin) out hbres hstinv h with h1 | h1
        · left
          rw [h1, nmFilter_append nm accF fin, hf, hr, hcur]
          simp
        · right
          rw [h1, nmFilter_append nm accF fin, hf]
          simp
      · rcases ih st1 res (accF ++ fin) out hbres hstinv h with h1 | h1
        · left
          rw [h1, nmFilter_append nm accF fin, hf, hr, hcur]
          simp
        · left
          rw [h1, nmFilter_append nm accF fin, hf, hcur]
      · rcases ih st1 res (accF ++ fin) out hbres hstinv h with h1 | h1
        · right
          rw [h1, nmFilter_append nm accF fin, hf, hr]
          simp
        · right
          rw [h1, nmFilter_append nm accF fin, hf]
          simp

/-! ### A name absent from the batch passes to the residue -/

lemma dictLookup_eq_none (b : Batch) (k : String) (h : k ∉ batchKeys b) :
    dictLookup b k = none := by
  have hf : List.find? (fun p => p.fst == k) b.reverse = none := by
    rw [List.find?_eq_none]
    intro p hp
    simp only [beq_iff_eq]
    intro hpk
    exact h (List.mem_map.mpr ⟨p, List.mem_reverse.mp hp, hpk⟩)
  unfold dictLookup
  rw [hf]
  rfl

lemma runPass_absent (mc : Nat) (baza : Batch) (nm : String)
    (hkey : dictLookup baza nm = none) :
    ∀ (lines : List String) (st st' : St) (res fin : List String),
      (st.lastread = some nm → st.lastappended = true ∧ st.lastfinal = false) →
      runPass mc baza st lines = some (st', res, fin) →
      nmFilter nm res = nmFilter nm lines ∧ nmFilter nm fin = [] ∧
        (st'.lastread = some nm → st'.lastappended = true ∧ st'.lastfinal = false) := by
  intro lines
  induction lines with
  | nil =>
    intro st st' res fin hinv h
    simp only [runPass, Option.some.injEq, Prod.mk.injEq] at h
    obtain ⟨hst, hres, hfin⟩ := h
    refine ⟨by rw [← hres], by rw [← hfin]; rfl, ?_⟩
    rw [← hst]
    exact hinv
  | cons l rest ih =>
    intro st st' res fin hinv h
    by_cases hn : nameOf l = nm
    · by_cases hreuse : some (nameOf l) = st.lastread
      · have hlr : st.lastread = some nm := by rw [← hreuse, hn]
        obtain ⟨happ, hfin1⟩ := hinv hlr
        have hstep : stepLine mc baza st l = some (st, Dest.toResidue) := by
          unfold stepLine
          rw [if_pos hreuse, happ, hfin1]
          simp
        simp only [runPass, hstep] at h
        cases hr : runPass mc baza st rest with
        | none => rw [hr] at h; exact absurd h (by simp)
        | some tr =>
          obtain ⟨stB, res0, fin0⟩ := tr
          rw [hr] at h
          simp only [Option.some.injEq, Prod.mk.injEq] at h
          obtain ⟨hst, hres, hfin2⟩ := h
          obtain ⟨ih1, ih2, ih3⟩ := ih st stB res0 fin0 hinv hr
          refine ⟨?_, ?_, ?_⟩
          · rw [← hres, nmFilter_cons_pos nm l res0 hn,
              nmFilter_cons_pos nm l rest hn, ih1]
          · rw [← hfin2]
            exact ih2
          · rw [← hst]
            exact ih3
      · have hlook : dictLookup baza (nameOf l) = none := by rw [hn]; exact hkey
        have hstep : stepLine mc baza st l =
            some (⟨some (nameOf l), true, false⟩, Dest.toResidue) := by
          rw [stepLine_fresh mc baza st l hreuse]
          exact freshDecision_absent mc baza st l hlook
        simp only [runPass, hstep] at h
        cases hr : runPass mc baza ⟨some (nameOf l), true, false⟩ rest with
        | none => rw [hr] at h; exact absurd h (by simp)
        | some tr =>
          obtain ⟨stB, res0, fin0⟩ := tr
          rw [hr] at h
          simp only [Option.some.injEq, Prod.mk.injEq] at h
          obtain ⟨hst, hres, hfin2⟩ := h
          obtain ⟨ih1, ih2, ih3⟩ := ih ⟨some (nameOf l), true, false⟩ stB res0 fin0
            (fun _ => ⟨rfl, rfl⟩) hr
          refine ⟨?_, ?_, ?_⟩
          · rw [← hres, nmFilter_cons_pos nm l res0 hn,
              nmFilter_cons_pos nm l rest hn, ih1]
          · rw [← hfin2]
            exact ih2
          · rw [← hst]
            exact ih3
    · cases hs : stepLine mc baza st l with
      | none => simp only [runPass, hs] at h; exact absurd h (by simp)
      | some t =>
        obtain ⟨stA, d⟩ := t
        have hinvA : stA.lastread = some nm →
            stA.lastappended = true ∧ stA.lastfinal = false := by
          intro hc
          rw [stepLine_lastread mc baza st stA l d hs] at hc
          exact absurd (Option.some.inj hc) hn
        simp only [runPass, hs] at h
        cases hr : runPass mc baza stA rest with
        | none => rw [hr] at h; exact absurd h (by simp)
        | some tr =>
          obtain ⟨stB, res0, fin0⟩ := tr
          rw [hr] at h
          obtain ⟨ih1, ih2, ih3⟩ := ih stA stB res0 fin0 hinvA hr
          cases d with
          | toFinal =>
            simp only [Option.some.injEq, Prod.mk.injEq] at h
            obtain ⟨hst, hres, hfin2⟩ := h
            refine ⟨?_, ?_, ?_⟩
            · rw [← hres, ih1, nmFilter_cons_neg nm l rest hn]
            · rw [← hfin2, nmFilter_cons_neg nm l fin0 hn]
              exact ih2
            · rw [← hst]
              exact ih3
          | toResidue =>
            simp only [Option.some.injEq, Prod.mk.injEq] at h
            obtain ⟨hst, hres, hfin2⟩ := h
            refine ⟨?_, ?_, ?_⟩
            · rw [← hres, nmFilter_cons_neg nm l res0 hn, ih1,
                nmFilter_cons_neg nm l rest hn]
            · rw [← hfin2]
              exact ih2
            · rw [← hst]
              exact ih3
          | dropped =>
            simp only [Option.some.injEq, Prod.mk.injEq] at h
            obtain ⟨hst, hres, hfin2⟩ := h
            refine ⟨?_, ?_, ?_⟩
            · rw [← hres, ih1, nmFilter_cons_neg nm l rest hn]
            · rw [← hfin2]
              exact ih2
            · rw [← hst]
              exact ih3

lemma driver_absent (mc : Nat) (nm : String) :
    ∀ (batches : List Batch) (st : St) (cur accF out : List String),
      (∀ b ∈ batches, dictLookup b nm = none) →
      (st.lastread = some nm → st.lastappended = true ∧ st.lastfinal = false) →
      driverGo mc batches st cur accF = some out →
      nmFilter nm out = nmFilter nm accF ++ nmFilter nm cur := by
  intro batches
  induction batches with
  | nil =>
    intro st cur accF out _ _ h
    simp only [driverGo, Option.some.injEq] at h
    subst h
    exact nmFilter_append nm accF cur
  | cons baza rest ih =>
    intro st cur accF out hkeys hinv h
    simp only [driverGo] at h
    cases hp : runPass mc baza st cur with
    | none => rw [hp] at h; exact absurd h (by simp)
    | some tp =>
      obtain ⟨st1, res, fin⟩ := tp
      rw [hp] at h
      obtain ⟨h1, h2, h3⟩ := runPass_absent mc baza nm (hkeys baza (by simp))
        cur st st1 res fin hinv hp
      rw [ih st1 res (accF ++ fin) out (fun b hb => hkeys b (by simp [hb])) h3 h,
        nmFilter_append nm accF fin, h2, h1]
      simp

/-! ### Batch keys come from the first file's read names -/

lemma splitCharAux_ne_nil (sep : Char) : ∀ l : List Char, splitCharAux sep l ≠ [] := by
  intro l
  cases l with
  | nil => simp [splitCharAux]
  | cons x xs =>
    unfold splitCharAux
    cases h : splitCharAux sep xs with
    | nil => simp
    | cons g gs =>
      split
      · simp
      · split <;> simp

lemma fieldsOf_ne_nil (line : String) : fieldsOf line ≠ [] := by
  unfold fieldsOf pySplit
  intro h
  rw [List.map_eq_nil_iff] at h
  exact splitCharAux_ne_nil '\t' (pyRstripCRLF line).data h

lemma giveRC_name (line : String) (col : Nat) (p : String × String)
    (h : giveRC (fieldsOf line) col = some p) : p.fst = nameOf line := by
  unfold giveRC at h
  cases hf : fieldsOf line with
  | nil => exact absurd hf (fieldsOf_ne_nil line)
  | cons a t =>
    rw [hf] at h
    rw [List.get?_cons_zero] at h
    cases hg : (a :: t).get? col with
    | none => rw [hg] at h; exact absurd h (by simp)
    | some b =>
      rw [hg] at h
      simp only [Option.some.injEq] at h
      rw [← h]
      simp [nameOf, hf]

lemma chunkRC_names (col : Nat) :
    ∀ (chunk : List String) (du : List (String × String)),
      chunkRC col chunk = some du → du.map Prod.fst = chunk.map nameOf := by
  intro chunk
  induction chunk with
  | nil =>
    intro du h
    simp only [chunkRC, Option.some.injEq] at h
    rw [← h]
    rfl
  | cons d rest ih =>
    intro du h
    simp only [chunkRC] at h
    cases hg : giveRC (fieldsOf d) col with
    | none => rw [hg] at h; exact absurd h (by simp)
    | some p =>
      rw [hg] at h
      cases hc : chunkRC col rest with
      | none => rw [hc] at h; exact absurd h (by simp)
      | some ps =>
        rw [hc] at h
        simp only [Option.some.injEq] at h
        rw [← h]
        simp only [List.map_cons]
        rw [giveRC_name d col p hg, ih ps hc]

lemma diLoop_names_subset :
    ∀ (du : List (String × String)) (lr : Option String) (p : String × Nat),
      p ∈ (diLoop lr du).snd → p.fst ∈ du.map Prod.fst := by
  intro du
  induction du with
  | nil => intro lr p hp; simp [diLoop] at hp
  | cons d rest ih =>
    intro lr p hp
    simp only [diLoop] at hp
    by_cases hd : some d.fst = lr
    · rw [if_pos hd] at hp
      exact List.mem_cons_of_mem _ (ih lr p hp)
    · rw [if_neg hd] at hp
      rcases List.mem_cons.mp hp with h1 | h1
      · rw [h1]
        exact List.mem_cons_self _ _
      · exact List.mem_cons_of_mem _ (ih (some d.fst) p h1)

lemma map2dictGo_keys_subset (col limit : Nat) :
    ∀ (chunks : List (List String)) (lr : Option String)
      (base : List (String × Nat)) (bs : List Batch),
      map2dictGo col limit lr base chunks = some bs →
      ∀ b ∈ bs, ∀ k ∈ batchKeys b,
        k ∈ base.map Prod.fst ∨ k ∈ (chunks.flatten).map nameOf := by
  intro chunks
  induction chunks with
  | nil =>
    intro lr base bs h b hb k hk
    simp only [map2dictGo, Option.some.injEq] at h
    by_cases he : base.isEmpty = true
    · rw [if_pos he] at h
      rw [← h] at hb
      exact absurd hb (List.not_mem_nil b)
    · rw [if_neg he] at h
      rw [← h] at hb
      obtain rfl := List.mem_singleton.mp hb
      exact Or.inl hk
  | cons chunk rest ih =>
    intro lr base bs h b hb k hk
    simp only [map2dictGo] at h
    by_cases hce : chunk.isEmpty = true
    · rw [if_pos hce] at h
      simp only [Option.some.injEq] at h
      by_cases he : base.isEmpty = true
      · rw [if_pos he] at h
        rw [← h] at hb
        exact absurd hb (List.not_mem_nil b)
      · rw [if_neg he] at h
        rw [← h] at hb
        obtain rfl := List.mem_singleton.mp hb
        exact Or.inl hk
    · rw [if_neg hce] at h
      cases hrc : chunkRC col chunk with
      | none => rw [hrc] at h; exact absurd h (by simp)
      | some du =>
        simp only [hrc] at h
        have hdu := chunkRC_names col chunk du hrc
        by_cases hlim : (base ++ (diLoop lr du).snd).length > limit
        · rw [if_pos hlim] at h
          cases hrec : map2dictGo col limit (diLoop lr du).fst [] rest with
          | none => rw [hrec] at h; exact absurd h (by simp)
          | some bs2 =>
            rw [hrec] at h
            simp only [Option.some.injEq] at h
            rw [← h] at hb
            rcases List.mem_cons.mp hb with rfl | hb2
            · simp only [batchKeys, List.map_append] at hk
              rcases List.mem_append.mp hk with hk1 | hk1
              · exact Or.inl hk1
              · obtain ⟨p, hp, rfl⟩ := List.mem_map.mp hk1
                have hmem := diLoop_names_subset du lr p hp
                rw [hdu] at hmem
                refine Or.inr ?_
                rw [show (chunk :: rest).flatten = chunk ++ rest.flatten from rfl,
                  List.map_append]
                exact List.mem_append_left _ hmem
            · rcases ih (diLoop lr du).fst [] bs2 hrec b hb2 k hk with h1 | h1
              · exact absurd h1 (by simp)
              · refine Or.inr ?_
                rw [show (chunk :: rest).flatten = chunk ++ rest.flatten from rfl,
                  List.map_append]
                exact List.mem_append_right _ h1
        · rw [if_neg hlim] at h
          rcases ih (diLoop lr du).fst (base ++ (diLoop lr du).snd) bs h b hb k hk
            with h1 | h1
          · rw [List.map_append] at h1
            rcases List.mem_append.mp h1 with h2 | h2
            · exact Or.inl h2
            · obtain ⟨p, hp, rfl⟩ := List.mem_map.mp h2
              have hmem := diLoop_names_subset du lr p hp
              rw [hdu] at hmem
              refine Or.inr ?_
              rw [show (chunk :: rest).flatten = chunk ++ rest.flatten from rfl,
                List.map_append]
              exact List.mem_append_left _ hmem
          · refine Or.inr ?_
            rw [show (chunk :: rest).flatten = chunk ++ rest.flatten from rfl,
              List.map_append]
            exact List.mem_append_right _ h1

/-! ### Claim theorems: concrete evaluations -/

/-- C1: the claim is right and the code is wrong.  With the first file split
over two batches (`a` in the first, `b` in the second) the read `b` has
reference mismatch count R = 0 and own mismatch count M = 1, so by the
monotonic keep rule its Read Group must be dropped (R < M).  The code keeps
it: `lastread`/`lastappended` survive from the previous pass, so the first
residue line of the second pass reuses the stale keep decision and is never
tested against the batch that contains `b`; the line ends in the final
output via the pass-through append. -/
theorem C1_bug_eval :
    map2dict 7 0 [[lineA1], [lineB1]] = some [[("a", 0)], [("b", 0)]] ∧
    mismatches "5:A>T" = 1 ∧
    runMain 7 0 [[lineA1], [lineB1]] [lineA2, lineB2] =
      some [lineA2, lineB2] := by
  refine ⟨by decide, by decide, by decide⟩

/-- C4 counterexample: the same two inputs filtered with batching threshold 5
(one batch) and threshold 0 (two batches) produce different outputs; with one
batch the worse-mapping read `b` is dropped, with two batches it survives. -/
theorem C4_counterexample :
    runMain 7 5 [[lineA1], [lineB1]] [lineA2, lineB2] = some [lineA2] ∧
    runMain 7 0 [[lineA1], [lineB1]] [lineA2, lineB2] =
      some [lineA2, lineB2] ∧
    (some [lineA2] : Option (List String)) ≠ some [lineA2, lineB2] := by
  refine ⟨by decide, by decide, by decide⟩

/-- C5 counterexample: both records of the second file are kept (one
finalized, one passed through), yet the output is not in the second file's
relative order: the pass-through record comes last although it came first. -/
theorem C5_counterexample :
    runMain 7 5 [[lineA1]] [lineB2, lineA2] = some [lineA2, lineB2] ∧
    isSublist [lineA2, lineB2] [lineB2, lineA2] = false := by
  refine ⟨by decide, by decide⟩

/-- C6 counterexample: the code derives the mismatch count as the number of
colons, not the number of comma-separated descriptors; on the nonempty field
"a,b" the two derivations differ (0 colons versus 2 descriptors). -/
theorem C6_counterexample :
    mismatches "a,b" = 0 ∧ mismatchesSpec "a,b" = 2 ∧
    mismatches "a,b" ≠ mismatchesSpec "a,b" := by
  refine ⟨by decide, by decide, by decide⟩

/-- C8: an empty first input file yields zero batches, and the driver then
copies the second input file to the output unchanged. -/
theorem C8_empty_first_file (mc limit : Nat) (file2 : List String) :
    map2dict mc limit [] = some [] ∧
    runMain mc limit [] file2 = some file2 := by
  constructor
  · rfl
  · simp [runMain, map2dict, map2dictGo, driverGo]

/-- C9: on a normally completing run with any number of batches, every file
the driver removes is a temporary file (`some k`); the original second input
(`none`) is never removed. -/
theorem C9_input_never_deleted (n : Nat) :
    ∀ f ∈ driverRemovals n, ∃ k, f = some k := by
  intro f hf
  cases f with
  | some k => exact ⟨k, rfl⟩
  | none =>
    exact absurd hf
      (finalRemovals_inv _ (driverLoopFiles_inv n (none, some 0, true, 1, [])
        ⟨fun _ => rfl, by simp, by simp⟩))

/-- C9 witness: with two batches the removed files are concrete temporary
files, and the theorem applies to the first of them. -/
theorem C9_input_never_deleted_witness :
    ∃ k, (some 0 : Option Nat) = some k :=
  C9_input_never_deleted 2 (some 0) (by decide)

/-- C2: atomic grouping.  If the records of read name `nm` form one
contiguous block of the second file (the contiguity precondition for that
name), then, whatever the inputs and threshold, the output's `nm`-lines are
either exactly the second file's `nm`-lines (all kept, unchanged and in
order) or empty (all dropped): a Read Group is never split. -/
theorem C2_atomic_grouping (mc limit : Nat) (chunks : List (List String))
    (file2 out : List String) (nm : String) (hb : Blocky nm file2)
    (h : runMain mc limit chunks file2 = some out) :
    nmFilter nm out = nmFilter nm file2 ∨ nmFilter nm out = [] := by
  unfold runMain at h
  cases hbt : map2dict mc limit chunks with
  | none => rw [hbt] at h; exact absurd h (by simp)
  | some batches =>
    rw [hbt] at h
    have hres := driver_blocky mc nm batches ⟨none, false, false⟩ file2 [] out hb
      (fun hc => absurd hc (by simp)) h
    simpa [nmFilter] using hres

/-- C2 witness: a concrete run (one batch, read `b` passed through, read `a`
finalized) where the theorem's hypotheses hold and `b`'s group is kept
whole. -/
theorem C2_atomic_grouping_witness :
    nmFilter "b" [lineA2, lineB2] = nmFilter "b" [lineB2, lineA2] ∨
      nmFilter "b" [lineA2, lineB2] = [] :=
  C2_atomic_grouping 7 5 [[lineA1]] [lineB2, lineA2] [lineA2, lineB2] "b"
    ⟨[], [lineB2], [lineA2], by decide, by decide, by decide, by decide⟩
    (by decide)

/-- C3: pass-through.  A read name that occurs nowhere in the first file is
never a key of any Reference Batch, so all its records of the second file
appear in the final output unchanged (the very same lines) and in their
original relative order, for every batching threshold and chunking. -/
theorem C3_passthrough (mc limit : Nat) (chunks : List (List String))
    (file2 out : List String) (nm : String)
    (habs : nm ∉ (chunks.flatten).map nameOf)
    (h : runMain mc limit chunks file2 = some out) :
    nmFilter nm out = nmFilter nm file2 := by
  unfold runMain at h
  cases hbt : map2dict mc limit chunks with
  | none => rw [hbt] at h; exact absurd h (by simp)
  | some batches =>
    rw [hbt] at h
    have hkeys : ∀ b ∈ batches, dictLookup b nm = none := by
      intro b hbmem
      apply dictLookup_eq_none
      intro hk
      rcases map2dictGo_keys_subset mc limit chunks none [] batches hbt
        b hbmem nm hk with h1 | h1
      · simp at h1
      · exact habs h1
    have hres := driver_absent mc nm batches ⟨none, false, false⟩ file2 [] out
      hkeys (fun hc => absurd hc (by simp)) h
    simpa [nmFilter] using hres

/-- C3 witness: read `b` is absent from the first file and its single record
passes through to the output. -/
theorem C3_passthrough_witness :
    nmFilter "b" [lineA2, lineB2] = nmFilter "b" [lineB2, lineA2] :=
  C3_passthrough 7 5 [[lineA1]] [lineB2, lineA2] [lineA2, lineB2] "b"
    (by decide) (by decide)

/-- C4 amended: the output is not invariant under the batching threshold
(see the counterexample); what holds is that the output depends on the
first file only through the yielded batch sequence, so two parameterizations
that yield the same batch sequence produce identical output. -/
theorem C4_amended_batch_determined (mc l1 l2 : Nat)
    (c1 c2 : List (List String)) (f : List String)
    (h : map2dict mc l1 c1 = map2dict mc l2 c2) :
    runMain mc l1 c1 f = runMain mc l2 c2 f := by
  unfold runMain
  rw [h]

/-- C4 amended witness: thresholds 3 and 5 yield the same single batch on a
one-read first file, hence the same output. -/
theorem C4_amended_batch_determined_witness :
    runMain 7 3 [[lineA1]] [lineA2] = runMain 7 5 [[lineA1]] [lineA2] :=
  C4_amended_batch_determined 7 3 5 [[lineA1]] [[lineA1]] [lineA2] (by decide)

/-- Each pass contributes its finalized lines as one output segment, and the
last residue is appended after all of them; every segment separately is a
sublist of the current source, hence of the second file. -/
lemma driver_sublist (mc : Nat) :
    ∀ (batches : List Batch) (st : St) (cur accF out : List String),
      driverGo mc batches st cur accF = some out →
      ∃ (parts : List (List String)) (resid : List String),
        out = accF ++ (parts.flatten ++ resid) ∧
        (∀ p ∈ parts, List.Sublist p cur) ∧ List.Sublist resid cur := by
  intro batches
  induction batches with
  | nil =>
    intro st cur accF out h
    simp only [driverGo, Option.some.injEq] at h
    exact ⟨[], cur, by simp [← h], by simp, List.Sublist.refl cur⟩
  | cons baza rest ih =>
    intro st cur accF out h
    simp only [driverGo] at h
    cases hp : runPass mc baza st cur with
    | none => rw [hp] at h; exact absurd h (by simp)
    | some tp =>
      obtain ⟨st1, res, fin⟩ := tp
      rw [hp] at h
      obtain ⟨hressub, hfinsub⟩ := runPass_sublists mc baza cur st st1 res fin hp
      obtain ⟨parts, resid, heq, hparts, hresid⟩ := ih st1 res (accF ++ fin) out h
      refine ⟨fin :: parts, resid, ?_, ?_, hresid.trans hressub⟩
      · rw [heq]
        simp [List.append_assoc]
      · intro p hpmem
        rcases List.mem_cons.mp hpmem with rfl | hpm
        · exact hfinsub
        · exact (hparts p hpm).trans hressub

/-- C5 amended: kept records need not preserve the second file's global
order (see the counterexample: pass-through records come last).  What holds:
the output is the concatenation of per-pass finalized segments followed by
the final residue, and each of these segments separately preserves the
second file's relative order (each is a sublist of the second file). -/
theorem C5_amended_segmentwise_order (mc limit : Nat)
    (chunks : List (List String)) (file2 out : List String)
    (h : runMain mc limit chunks file2 = some out) :
    ∃ (parts : List (List String)) (resid : List String),
      out = parts.flatten ++ resid ∧
      (∀ p ∈ parts, List.Sublist p file2) ∧ List.Sublist resid file2 := by
  unfold runMain at h
  cases hbt : map2dict mc limit chunks with
  | none => rw [hbt] at h; exact absurd h (by simp)
  | some batches =>
    rw [hbt] at h
    obtain ⟨parts, resid, heq, hparts, hresid⟩ :=
      driver_sublist mc batches ⟨none, false, false⟩ file2 [] out h
    exact ⟨parts, resid, by simpa using heq, hparts, hresid⟩

/-- C5 amended witness: the counterexample run decomposes into the finalized
segment `[lineA2]` and the pass-through residue `[lineB2]`, each a sublist
of the second file. -/
theorem C5_amended_segmentwise_order_witness :
    ∃ (parts : List (List String)) (resid : List String),
      [lineA2, lineB2] = parts.flatten ++ resid ∧
      (∀ p ∈ parts, List.Sublist p [lineB2, lineA2]) ∧
      List.Sublist resid [lineB2, lineA2] :=
  C5_amended_segmentwise_order 7 5 [[lineA1]] [lineB2, lineA2]
    [lineA2, lineB2] (by decide)

/-! ### The colon count distributes over the comma split -/

lemma countCharL_cons (c x : Char) (xs : List Char) :
    countCharL c (x :: xs) =
      (if (x == c) = true then 1 else 0) + countCharL c xs := by
  simp only [countCharL, List.filter_cons]
  by_cases h : (x == c) = true
  · rw [if_pos h, if_pos h]
    simp only [List.length_cons]
    omega
  · rw [if_neg h, if_neg h]
    omega

lemma splitCharAux_count (c sep : Char) (hcs : (sep == c) = false) :
    ∀ l : List Char,
      ((splitCharAux sep l).map (countCharL c)).sum = countCharL c l := by
  intro l
  induction l with
  | nil => rfl
  | cons x xs ih =>
    simp only [splitCharAux]
    cases h : splitCharAux sep xs with
    | nil => exact absurd h (splitCharAux_ne_nil sep xs)
    | cons g gs =>
      rw [h] at ih
      dsimp only
      by_cases hx : (x == sep) = true
      · rw [if_pos hx]
        have hxc : (x == c) = false := by
          have hxs : x = sep := beq_iff_eq.mp hx
          rw [hxs]
          exact hcs
        simp only [List.map_cons, List.sum_cons] at ih ⊢
        rw [countCharL_cons c x xs, hxc]
        have h0 : countCharL c ([] : List Char) = 0 := rfl
        rw [h0]
        simp only [Bool.false_eq_true, if_false]
        omega
      · rw [if_neg hx]
        simp only [List.map_cons, List.sum_cons] at ih ⊢
        rw [countCharL_cons c x xs, countCharL_cons c x g]
        omega

lemma pyCount_split (c sep : Char) (hcs : (sep == c) = false) (s : String) :
    ((pySplit sep s).map (pyCount c)).sum = pyCount c s := by
  unfold pySplit pyCount
  rw [← splitCharAux_count c sep hcs s.data, List.map_map]
  rfl

lemma sum_map_ones {α : Type} (f : α → Nat) :
    ∀ l : List α, (∀ x ∈ l, f x = 1) → (l.map f).sum = l.length := by
  intro l
  induction l with
  | nil => intro _; rfl
  | cons x xs ih =>
    intro h
    simp only [List.map_cons, List.sum_cons, List.length_cons, h x (by simp),
      ih (fun y hy => h y (by simp [hy]))]
    omega

/-- C6 amended: the mismatch count of a nonempty field is the number of
colons, which agrees with the spec's comma-descriptor count exactly when
each comma-separated descriptor carries one colon (as in the documented
`offset:ref>read` format); the empty field gives 0 and the documented
example gives 2.  Both program sites use this single derivation
(`mismatches`: line 81 and line 218). -/
theorem C6_amended_colon_count :
    (∀ s : String, s ≠ "" → (∀ d ∈ pySplit ',' s, pyCount ':' d = 1) →
      mismatches s = mismatchesSpec s) ∧
    mismatches "" = 0 ∧ mismatches "3:A>T,15:C>G" = 2 := by
  refine ⟨?_, rfl, by decide⟩
  intro s hs h1
  unfold mismatches mismatchesSpec
  rw [if_neg hs, if_neg hs, ← pyCount_split ':' ',' (by decide) s]
  exact sum_map_ones (pyCount ':') (pySplit ',' s) h1

/-- C6 amended witness: on the documented example both derivations agree. -/
theorem C6_amended_colon_count_witness :
    mismatches "3:A>T,15:C>G" = mismatchesSpec "3:A>T,15:C>G" :=
  C6_amended_colon_count.1 "3:A>T,15:C>G" (by decide) (by decide)

/-! ### Exact characterization of the batch keys -/

lemma cursor_nil (lr : Option String) : cursor lr [] = lr := rfl

lemma cursor_cons (lr : Option String) (x : String) (xs : List String) :
    cursor lr (x :: xs) = cursor (some x) xs := rfl

lemma diLoop_fst :
    ∀ (du : List (String × String)) (lr : Option String),
      ((diLoop lr du).snd).map Prod.fst = dedupConsec lr (du.map Prod.fst) := by
  intro du
  induction du with
  | nil => intro lr; rfl
  | cons d rest ih =>
    intro lr
    simp only [diLoop, List.map_cons, dedupConsec]
    by_cases hd : some d.fst = lr
    · rw [if_pos hd, if_pos hd]
      exact ih lr
    · rw [if_neg hd, if_neg hd]
      dsimp only
      rw [List.map_cons, ih (some d.fst)]

lemma diLoop_cursor :
    ∀ (du : List (String × String)) (lr : Option String),
      (diLoop lr du).fst = cursor lr (du.map Prod.fst) := by
  intro du
  induction du with
  | nil => intro lr; rfl
  | cons d rest ih =>
    intro lr
    simp only [diLoop, List.map_cons, cursor_cons]
    by_cases hd : some d.fst = lr
    · rw [if_pos hd, ih lr, ← hd]
    · rw [if_neg hd]
      dsimp only
      exact ih (some d.fst)

lemma dedupConsec_append :
    ∀ (xs ys : List String) (lr : Option String),
      dedupConsec lr (xs ++ ys) =
        dedupConsec lr xs ++ dedupConsec (cursor lr xs) ys := by
  intro xs
  induction xs with
  | nil => intro ys lr; rfl
  | cons x rest ih =>
    intro ys lr
    simp only [List.cons_append, dedupConsec, cursor_cons, List.append_eq]
    by_cases hx : some x = lr
    · rw [if_pos hx, if_pos hx, ih ys lr, ← hx]
    · rw [if_neg hx, if_neg hx, ih ys (some x)]
      simp [List.cons_append]

lemma mem_dedupConsec :
    ∀ (l : List String) (lr : Option String) (y : String),
      y ∈ dedupConsec lr l → y ∈ l := by
  intro l
  induction l with
  | nil => intro lr y hy; simp [dedupConsec] at hy
  | cons x rest ih =>
    intro lr y hy
    simp only [dedupConsec] at hy
    by_cases hx : some x = lr
    · rw [if_pos hx] at hy
      exact List.mem_cons_of_mem x (ih lr y hy)
    · rw [if_neg hx] at hy
      rcases List.mem_cons.mp hy with rfl | h1
      · exact List.mem_cons_self _ _
      · exact List.mem_cons_of_mem x (ih (some x) y h1)

lemma mem_dedupConsec_of_mem :
    ∀ (l : List String) (lr : Option String) (y : String),
      y ∈ l → some y = lr ∨ y ∈ dedupConsec lr l := by
  intro l
  induction l with
  | nil => intro lr y hy; exact absurd hy (List.not_mem_nil y)
  | cons x rest ih =>
    intro lr y hy
    simp only [dedupConsec]
    by_cases hx : some x = lr
    · rw [if_pos hx]
      rcases List.mem_cons.mp hy with rfl | h1
      · exact Or.inl hx
      · exact ih lr y h1
    · rw [if_neg hx]
      rcases List.mem_cons.mp hy with rfl | h1
      · exact Or.inr (List.mem_cons_self _ _)
      · rcases ih (some x) y h1 with h2 | h2
        · exact Or.inr (by rw [Option.some.inj h2]; exact List.mem_cons_self _ _)
        · exact Or.inr (List.mem_cons_of_mem x h2)

/-- On a first file with nonempty chunks, the concatenation of all batch
keys is exactly the consecutive-repeat-collapsed list of the file's read
names: the emitted pairs just get cut into consecutive segments by the
threshold. -/
lemma map2dictGo_keys_exact (col limit : Nat) :
    ∀ (chunks : List (List String)) (lr : Option String)
      (base : List (String × Nat)) (bs : List Batch),
      (∀ c ∈ chunks, c ≠ []) →
      map2dictGo col limit lr base chunks = some bs →
      (bs.map batchKeys).flatten =
        base.map Prod.fst ++ dedupConsec lr ((chunks.flatten).map nameOf) := by
  intro chunks
  induction chunks with
  | nil =>
    intro lr base bs _ h
    simp only [map2dictGo, Option.some.injEq] at h
    by_cases he : base.isEmpty = true
    · rw [if_pos he] at h
      rw [← h, List.isEmpty_iff.mp he]
      rfl
    · rw [if_neg he] at h
      rw [← h]
      simp [batchKeys, dedupConsec]
  | cons chunk rest ih =>
    intro lr base bs hne h
    have hcne : chunk ≠ [] := hne chunk (by simp)
    simp only [map2dictGo] at h
    rw [if_neg (by simpa using hcne)] at h
    cases hrc : chunkRC col chunk with
    | none => rw [hrc] at h; exact absurd h (by simp)
    | some du =>
      simp only [hrc] at h
      have hdu := chunkRC_names col chunk du hrc
      have hjoin : ((chunk :: rest).flatten).map nameOf =
          chunk.map nameOf ++ ((rest.flatten).map nameOf) := by
        rw [show (chunk :: rest).flatten = chunk ++ rest.flatten from rfl,
          List.map_append]
      by_cases hlim : (base ++ (diLoop lr du).snd).length > limit
      · rw [if_pos hlim] at h
        cases hrec : map2dictGo col limit (diLoop lr du).fst [] rest with
        | none => rw [hrec] at h; exact absurd h (by simp)
        | some bs2 =>
          rw [hrec] at h
          simp only [Option.some.injEq] at h
          rw [← h]
          have hih := ih (diLoop lr du).fst [] bs2
            (fun c hc => hne c (by simp [hc])) hrec
          rw [show (((base ++ (diLoop lr du).snd) :: bs2).map batchKeys).flatten =
              batchKeys (base ++ (diLoop lr du).snd) ++
                (bs2.map batchKeys).flatten from rfl]
          rw [hih, hjoin, dedupConsec_append]
          simp only [batchKeys, List.map_append, List.nil_append]
          rw [diLoop_fst du lr, diLoop_cursor du lr, hdu]
          simp [List.append_assoc]
      · rw [if_neg hlim] at h
        have hih := ih (diLoop lr du).fst (base ++ (diLoop lr du).snd) bs
          (fun c hc => hne c (by simp [hc])) h
        rw [hih, hjoin, dedupConsec_append]
        simp only [List.map_append]
        rw [diLoop_fst du lr, diLoop_cursor du lr, hdu]
        simp [List.append_assoc]

/-- C7: under the contiguity precondition on the first file's read names
(and `readlines` chunks, which are never empty before end of file), the
batches' key lists are globally duplicate-free, cover exactly the file's
read names (each name keyed in exactly one batch), and are pairwise
disjoint. -/
theorem C7_batch_keys_disjoint (col limit : Nat) (chunks : List (List String))
    (bs : List Batch) (hne : ∀ c ∈ chunks, c ≠ [])
    (hcont : Contiguous ((chunks.flatten).map nameOf))
    (h : map2dict col limit chunks = some bs) :
    ((bs.map batchKeys).flatten).Nodup ∧
    (∀ nm, nm ∈ (bs.map batchKeys).flatten ↔ nm ∈ (chunks.flatten).map nameOf) ∧
    bs.Pairwise (fun b c => ∀ nm, nm ∈ batchKeys b → nm ∉ batchKeys c) := by
  have hkeys := map2dictGo_keys_exact col limit chunks none [] bs hne h
  simp only [List.map_nil, List.nil_append] at hkeys
  have hnodup : ((bs.map batchKeys).flatten).Nodup := by
    rw [hkeys]
    exact hcont
  refine ⟨hnodup, ?_, ?_⟩
  · intro nm
    constructor
    · intro hm
      rw [hkeys] at hm
      exact mem_dedupConsec _ none nm hm
    · intro hm
      rw [hkeys]
      rcases mem_dedupConsec_of_mem _ none nm hm with h1 | h1
      · exact absurd h1 (by simp)
      · exact h1
  · have hpw : (bs.map batchKeys).Pairwise List.Disjoint :=
      ((List.nodup_flatten.mp hnodup)).2
    have hpw2 := (List.pairwise_map).mp hpw
    exact hpw2.imp (fun hd nm h1 h2 => hd h1 h2)

/-- C7 witness: two one-read chunks with threshold 0 give two singleton
batches with disjoint keys. -/
theorem C7_batch_keys_disjoint_witness :
    (([[("a", 0)], [("b", 0)]].map batchKeys).flatten).Nodup :=
  (C7_batch_keys_disjoint 7 0 [[lineA1], [lineB1]] [[("a", 0)], [("b", 0)]]
    (by decide) (by decide) (by decide)).1

/-! ### The mismatch field is read only for a new group found in the batch -/

/-- `stepLine` can fail only on the `r[mc]` access, and that access is
reached only when the line starts a new Read Group (name differs from the
cursor) whose name is found in the batch. -/
lemma stepLine_none (mc : Nat) (baza : Batch) (st : St) (line : String)
    (h : stepLine mc baza st line = none) :
    some (nameOf line) ≠ st.lastread ∧
      (∃ R, dictLookup baza (nameOf line) = some R) ∧
      (fieldsOf line).get? mc = none := by
  unfold stepLine at h
  split at h
  · split at h
    · exact absurd h (by simp)
    · split at h <;> exact absurd h (by simp)
  · next hc =>
    unfold freshDecision at h
    split at h
    · exact absurd h (by simp)
    · next x hdict hget => exact ⟨hc, ⟨x, hdict⟩, hget⟩
    · split at h <;> exact absurd h (by simp)

/-- C10: if a Batch Filter Pass aborts with the out-of-range field access,
then some line of the source is to blame, and it is necessarily a line that
starts a new Read Group (its name differs from the carried cursor after the
successfully processed preceding lines) and whose name is a key of the
current batch; lines that continue a group or whose name is absent from the
batch can never reach that access. -/
theorem C10_field_access_guarded (mc : Nat) (baza : Batch) (st : St)
    (lines : List String) (h : runPass mc baza st lines = none) :
    ∃ pre l post st2 r f, lines = pre ++ l :: post ∧
      runPass mc baza st pre = some (st2, r, f) ∧
      some (nameOf l) ≠ st2.lastread ∧
      (∃ R, dictLookup baza (nameOf l) = some R) ∧
      (fieldsOf l).get? mc = none := by
  induction lines generalizing st with
  | nil => exact absurd h (by simp [runPass])
  | cons l rest ih =>
    cases hs : stepLine mc baza st l with
    | none =>
      obtain ⟨h1, h2, h3⟩ := stepLine_none mc baza st l hs
      exact ⟨[], l, rest, st, [], [], rfl, rfl, h1, h2, h3⟩
    | some t =>
      obtain ⟨stA, d⟩ := t
      simp only [runPass, hs] at h
      cases hr : runPass mc baza stA rest with
      | none =>
        obtain ⟨pre, l2, post, st2, r, f, heq, hpre, hny, hdict, hget⟩ := ih stA hr
        cases d with
        | toFinal =>
          exact ⟨l :: pre, l2, post, st2, r, l :: f, by rw [heq, List.cons_append],
            by simp [runPass, hs, hpre], hny, hdict, hget⟩
        | toResidue =>
          exact ⟨l :: pre, l2, post, st2, l :: r, f, by rw [heq, List.cons_append],
            by simp [runPass, hs, hpre], hny, hdict, hget⟩
        | dropped =>
          exact ⟨l :: pre, l2, post, st2, r, f, by rw [heq, List.cons_append],
            by simp [runPass, hs, hpre], hny, hdict, hget⟩
      | some tr =>
        obtain ⟨stB, res, fin⟩ := tr
        rw [hr] at h
        cases d <;> simp at h

/-- C10 witness: a one-field line whose name is a key of the batch makes the
pass abort, and the theorem locates the guilty line. -/
theorem C10_field_access_guarded_witness :
    ∃ pre l post st2 r f, (["a"] : List String) = pre ++ l :: post ∧
      runPass 7 [("a", 0)] ⟨none, false, false⟩ pre = some (st2, r, f) ∧
      some (nameOf l) ≠ st2.lastread ∧
      (∃ R, dictLookup [("a", 0)] (nameOf l) = some R) ∧
      (fieldsOf l).get? 7 = none :=
  C10_field_access_guarded 7 [("a", 0)] ⟨none, false, false⟩ ["a"] (by decide)

end RemoveReadsGT
